import Mathlib

/-!
Shallow embedding of the video-note generator (src/main.go) in Lean 4.

Strings are modelled by Lean `String` (a list of Unicode scalar values);
Go byte lengths (`len`) are computed as UTF-8 byte sizes via `goLen`.
Go `float64` ratio values are modelled as exact rationals `ℚ`; the decimal
literals 0.1 and 0.5 of the source become the rationals 1/10 and 1/2.
Chunk sizes (Go `int`, only ever 3000 in the program) are modelled as `Nat`.
The effectful parts of `summarizeText` (HTTP requests, goroutines, channels)
are abstracted to their observable outcomes: the list of errors drained from
the error channel and the list of collected summary fragments.
-/

/-- Go `unicode.IsSpace`: the Unicode White_Space property, the exact
character set `strings.Fields` splits on. -/
def goIsSpace (c : Char) : Bool :=
  decide ((9 ≤ c.toNat ∧ c.toNat ≤ 13) ∨ c.toNat = 32 ∨ c.toNat = 0x85 ∨
    c.toNat = 0xA0 ∨ c.toNat = 0x1680 ∨ (0x2000 ≤ c.toNat ∧ c.toNat ≤ 0x200A) ∨
    c.toNat = 0x2028 ∨ c.toNat = 0x2029 ∨ c.toNat = 0x202F ∨ c.toNat = 0x205F ∨
    c.toNat = 0x3000)

/-- UTF-8 byte size of one character; Go `len` on strings counts bytes. -/
def charSize (c : Char) : Nat :=
  if c.toNat < 0x80 then 1
  else if c.toNat < 0x800 then 2
  else if c.toNat < 0x10000 then 3
  else 4

/-- Go `len(s)` for a string: its UTF-8 byte length. -/
def goLen (s : String) : Nat := (s.data.map charSize).sum

/-- Helper for `goFields`: scans the characters, accumulating the current
word in reverse, emitting a word at each maximal run of non-space characters
(the semantics of Go `strings.Fields`). -/
def fieldsAux (p : Char → Bool) : List Char → List Char → List String
  | [], acc => if acc = [] then [] else [String.mk acc.reverse]
  | c :: cs, acc =>
    if p c then
      if acc = [] then fieldsAux p cs []
      else String.mk acc.reverse :: fieldsAux p cs []
    else fieldsAux p cs (c :: acc)

/-- Go `strings.Fields(s)`: the whitespace-delimited words of `s`
(src/main.go line 258). -/
def goFields (s : String) : List String := fieldsAux goIsSpace s.data []

/-- Go `strings.Join(elems, sep)`: concatenation with `sep` between
consecutive elements. -/
def goJoin (sep : String) : List String → String
  | [] => ""
  | [a] => a
  | a :: b :: rest => a ++ sep ++ goJoin sep (b :: rest)

/-- One iteration of the loop body of `splitTextIntoChunks`
(src/main.go lines 261-272): state is `(chunks, currentChunk)`. -/
def chunkStep (chunkSize : Nat) : List String × String → String → List String × String
  | (chunks, currentChunk), word =>
    if goLen currentChunk + goLen word + 1 > chunkSize then
      (chunks ++ [currentChunk], word)
    else
      if currentChunk = "" then (chunks, word)
      else (chunks, currentChunk ++ " " ++ word)

/-- `splitTextIntoChunks` (src/main.go lines 256-279): folds the words of
`text` through `chunkStep` starting from no chunks and an empty current
chunk, then appends the final current chunk when it is nonempty. -/
def splitTextIntoChunks (text : String) (chunkSize : Nat) : List String :=
  let words := goFields text
  let st := words.foldl (chunkStep chunkSize) ([], "")
  if st.2 ≠ "" then st.1 ++ [st.2] else st.1

/-- Go `path/filepath.Ext` helper: scans the reversed character list,
accumulating the scanned suffix; stops with `""` at a path separator and
with the dot-to-end substring at a dot. -/
def filepathExtAux : List Char → List Char → String
  | [], _ => ""
  | c :: rest, acc =>
    if c = '/' then ""
    else if c = '.' then String.mk (c :: acc)
    else filepathExtAux rest (c :: acc)

/-- Go `path/filepath.Ext(path)`: the suffix beginning at the final dot in
the final slash-separated element, or `""` when there is no dot. -/
def filepathExt (path : String) : String := filepathExtAux path.data.reverse []

/-- Go `strings.TrimSuffix(s, suffix)`: drops `suffix` from the end of `s`
when present, otherwise returns `s` unchanged. -/
def trimSuffix (s suffix : String) : String :=
  if List.isSuffixOf suffix.data s.data then
    String.mk (s.data.take (s.data.length - suffix.data.length))
  else s

/-- Output-path resolution of the `generate` subcommand (src/main.go lines
90-93): an empty `-o` defaults to the input path with its extension replaced
by `.txt`. -/
def generateOutputPath (videoPath outputPath : String) : String :=
  if outputPath = "" then trimSuffix videoPath (filepathExt videoPath) ++ ".txt"
  else outputPath

/-- Output-path resolution of the `transcribe` subcommand (src/main.go lines
297-300): an empty `-o` defaults to the input path with its extension
replaced by `.txt`. -/
def transcribeOutputPath (audioPath outputPath : String) : String :=
  if outputPath = "" then trimSuffix audioPath (filepathExt audioPath) ++ ".txt"
  else outputPath

/-- Output-path resolution of the `summarize` subcommand (src/main.go lines
335-338): an empty `-o` defaults to the input path with its extension
replaced by `.summary.txt`. -/
def summarizeOutputPath (inputPath outputPath : String) : String :=
  if outputPath = "" then trimSuffix inputPath (filepathExt inputPath) ++ ".summary.txt"
  else outputPath

/-- Result of the pure prefix of the `summarize` subcommand's `Exec`
function (src/main.go lines 330-346): either one of the two early errors, or
the arguments with which `summarizeText` is invoked. -/
inductive SummarizeCmdResult
  | errMissingInput
  | errRatioOutOfRange
  | runSummarize (inputPath outputPath : String) (ratio : ℚ)
deriving DecidableEq

/-- The pure prefix of the `summarize` subcommand's `Exec` function
(src/main.go lines 330-346): requires `-i`, defaults `-o`, rejects a ratio
outside [0.1, 0.5], and otherwise proceeds to `summarizeText`. -/
def summarizeCommandExec (inputPath outputPath : String) (ratio : ℚ) :
    SummarizeCmdResult :=
  if inputPath = "" then .errMissingInput
  else
    let out := summarizeOutputPath inputPath outputPath
    if ratio < 0.1 ∨ ratio > 0.5 then .errRatioOutOfRange
    else .runSummarize inputPath out ratio

/-- The ratio clamp at the top of `summarizeText` (src/main.go lines
177-182): the clamped value is the ratio used in the prompt (as
`ratio * 100` percent) and in the per-request token budget
(`len(text) * ratio * 1.5`). -/
def clampRatio (ratio : ℚ) : ℚ :=
  if ratio < 0.1 then 0.1
  else if ratio > 0.5 then 0.5
  else ratio

/-- The separator literal joined between summary fragments
(src/main.go line 246). -/
def partSeparator : String := "\n\n--- 第%d部分结束 ---\n\n"

/-- Observable outcome of the tail of `summarizeText` (src/main.go lines
239-253): the function either returns an error or writes the combined
summary to the output file. -/
inductive SummarizeResult
  | written (content : String)
  | failed (err : String)
deriving DecidableEq

/-- The tail of `summarizeText` (src/main.go lines 239-253), with the
concurrent per-chunk requests abstracted to their observable outcomes:
`drainedErrors` is the sequence of errors received from the error channel
and `summaries` the collected summary fragments. The caller returns the
first drained error; only when no error was drained does it join the
fragments with `partSeparator` and write the result. -/
def summarizeFinish (drainedErrors : List String) (summaries : List String) :
    SummarizeResult :=
  match drainedErrors with
  | e :: _ => .failed e
  | [] => .written (goJoin partSeparator summaries)

/-! ### Helper lemmas about strings, words and joining -/

theorem str_data_append (a b : String) : (a ++ b).data = a.data ++ b.data := by
  cases a; cases b; rfl

theorem str_append_assoc (a b c : String) : a ++ b ++ c = a ++ (b ++ c) := by
  cases a with
  | mk la =>
    cases b with
    | mk lb =>
      cases c with
      | mk lc =>
        show String.mk (la ++ lb ++ lc) = String.mk (la ++ (lb ++ lc))
        rw [List.append_assoc]

theorem str_eq_empty_iff (s : String) : s = "" ↔ s.data = [] := by
  cases s with
  | mk l =>
    constructor
    · intro h
      exact congrArg String.data h
    · intro h
      subst h
      rfl

theorem str_append_ne_empty (a b : String) (h : a ≠ "") : a ++ b ≠ "" := by
  intro hab
  apply h
  rw [str_eq_empty_iff] at hab ⊢
  rw [str_data_append] at hab
  exact (List.append_eq_nil.mp hab).1

theorem goLen_append (a b : String) : goLen (a ++ b) = goLen a + goLen b := by
  simp [goLen, str_data_append]

theorem goLen_empty : goLen "" = 0 := rfl

theorem goLen_single_space : goLen " " = 1 := rfl

theorem goJoin_cons (sep a : String) {t : List String} (h : t ≠ []) :
    goJoin sep (a :: t) = a ++ sep ++ goJoin sep t := by
  cases t with
  | nil => exact absurd rfl h
  | cons b r => rfl

theorem goJoin_merge (sep : String) :
    ∀ (l t : List String) (a b : String),
      goJoin sep (l ++ (a ++ sep ++ b) :: t) = goJoin sep (l ++ a :: b :: t) := by
  intro l
  induction l with
  | nil =>
    intro t a b
    cases t with
    | nil => simp [goJoin]
    | cons c r =>
      rw [List.nil_append, List.nil_append,
        goJoin_cons sep _ (List.cons_ne_nil c r),
        goJoin_cons sep a (List.cons_ne_nil b (c :: r)),
        goJoin_cons sep b (List.cons_ne_nil c r)]
      simp only [str_append_assoc]
  | cons x l ih =>
    intro t a b
    rw [List.cons_append, List.cons_append,
      goJoin_cons sep x (by simp), goJoin_cons sep x (by simp), ih]

/-- Every word produced by `fieldsAux` is a nonempty string. -/
theorem fieldsAux_mem_ne_empty (p : Char → Bool) :
    ∀ (l acc : List Char) (w : String), w ∈ fieldsAux p l acc → w ≠ "" := by
  intro l
  induction l with
  | nil =>
    intro acc w hw
    simp only [fieldsAux] at hw
    split at hw
    · simp at hw
    · next hacc =>
      rw [List.mem_singleton] at hw
      subst hw
      intro hc
      exact hacc (by simpa using congrArg String.data hc)
  | cons c cs ih =>
    intro acc w hw
    simp only [fieldsAux] at hw
    split at hw
    · split at hw
      · exact ih [] w hw
      · next hacc =>
        rw [List.mem_cons] at hw
        rcases hw with hw | hw
        · subst hw
          intro hc
          exact hacc (by simpa using congrArg String.data hc)
        · exact ih [] w hw
    · exact ih (c :: acc) w hw

/-- Every word of `goFields s` is a nonempty string. -/
theorem goFields_mem_ne_empty (s : String) (w : String) (hw : w ∈ goFields s) :
    w ≠ "" :=
  fieldsAux_mem_ne_empty goIsSpace s.data [] w hw

/-- `fieldsAux` on an all-space character list produces no words. -/
theorem fieldsAux_all_space (p : Char → Bool) :
    ∀ (l : List Char), (∀ c ∈ l, p c = true) → fieldsAux p l [] = [] := by
  intro l
  induction l with
  | nil => intro _; rfl
  | cons c cs ih =>
    intro h
    have hc : p c = true := h c (List.mem_cons_self c cs)
    simp only [fieldsAux, hc, if_true, if_pos rfl]
    exact ih fun d hd => h d (List.mem_cons_of_mem c hd)

/-- Join invariant of the chunking fold: starting from a nonempty current
chunk, joining (with single spaces) the final chunk list extended by the
final current chunk equals joining the initial chunk list, the initial
current chunk and all remaining words; moreover the final current chunk is
nonempty. -/
theorem foldChunk_join (n : Nat) (ws : List String) :
    ∀ (cs : List String) (cur : String), cur ≠ "" → (∀ w ∈ ws, w ≠ "") →
      ((ws.foldl (chunkStep n) (cs, cur)).2 ≠ "" ∧
        goJoin " " ((ws.foldl (chunkStep n) (cs, cur)).1 ++
            [(ws.foldl (chunkStep n) (cs, cur)).2]) =
          goJoin " " (cs ++ cur :: ws)) := by
  induction ws with
  | nil =>
    intro cs cur hcur _
    exact ⟨hcur, rfl⟩
  | cons w ws ih =>
    intro cs cur hcur hws
    have hw : w ≠ "" := hws w (List.mem_cons_self w ws)
    have hws' : ∀ v ∈ ws, v ≠ "" := fun v hv => hws v (List.mem_cons_of_mem w hv)
    rw [List.foldl_cons]
    by_cases h1 : goLen cur + goLen w + 1 > n
    · rw [show chunkStep n (cs, cur) w = (cs ++ [cur], w) by
        simp only [chunkStep]; rw [if_pos h1]]
      obtain ⟨h2, h3⟩ := ih (cs ++ [cur]) w hw hws'
      refine ⟨h2, ?_⟩
      rw [h3, List.append_assoc, List.singleton_append]
    · rw [show chunkStep n (cs, cur) w = (cs, cur ++ " " ++ w) by
        simp only [chunkStep]; rw [if_neg h1, if_neg hcur]]
      obtain ⟨h2, h3⟩ :=
        ih cs (cur ++ " " ++ w) (str_append_ne_empty _ _ (str_append_ne_empty _ _ hcur)) hws'
      refine ⟨h2, ?_⟩
      rw [h3, goJoin_merge]

/-- Size invariant of the chunking fold: when every word comes from `W`,
every accumulated chunk (and the current chunk) either fits in the size
budget or is one of the words of `W`. -/
theorem foldChunk_bound (n : Nat) (W : List String) (ws : List String) :
    ∀ (cs : List String) (cur : String),
      (∀ w ∈ ws, w ∈ W) →
      (∀ c ∈ cs, goLen c ≤ n ∨ c ∈ W) →
      (goLen cur ≤ n ∨ cur ∈ W) →
      ((∀ c ∈ (ws.foldl (chunkStep n) (cs, cur)).1, goLen c ≤ n ∨ c ∈ W) ∧
        (goLen (ws.foldl (chunkStep n) (cs, cur)).2 ≤ n ∨
          (ws.foldl (chunkStep n) (cs, cur)).2 ∈ W)) := by
  induction ws with
  | nil =>
    intro cs cur _ hcs hcur
    exact ⟨hcs, hcur⟩
  | cons w ws ih =>
    intro cs cur hws hcs hcur
    have hwW : w ∈ W := hws w (List.mem_cons_self w ws)
    have hws' : ∀ v ∈ ws, v ∈ W := fun v hv => hws v (List.mem_cons_of_mem w hv)
    rw [List.foldl_cons]
    by_cases h1 : goLen cur + goLen w + 1 > n
    · rw [show chunkStep n (cs, cur) w = (cs ++ [cur], w) by
        simp only [chunkStep]; rw [if_pos h1]]
      refine ih (cs ++ [cur]) w hws' ?_ (Or.inr hwW)
      intro c hc
      rcases List.mem_append.mp hc with hc | hc
      · exact hcs c hc
      · rw [List.mem_singleton] at hc
        subst hc
        exact hcur
    · by_cases h2 : cur = ""
      · rw [show chunkStep n (cs, cur) w = (cs, w) by
          simp only [chunkStep]; rw [if_neg h1, if_pos h2]]
        exact ih cs w hws' hcs (Or.inr hwW)
      · rw [show chunkStep n (cs, cur) w = (cs, cur ++ " " ++ w) by
          simp only [chunkStep]; rw [if_neg h1, if_neg h2]]
        refine ih cs (cur ++ " " ++ w) hws' hcs (Or.inl ?_)
        rw [goLen_append, goLen_append, goLen_single_space]
        omega

/-! ### Claim theorems -/

/-- C1 (counterexample): on input "a b c d" with chunk size 3,
`splitTextIntoChunks` does not return the chunk list `["a","b","c","d"]`
claimed by the spec. -/
theorem chunks_example_cex : splitTextIntoChunks "a b c d" 3 ≠ ["a", "b", "c", "d"] := by
  decide

/-- C1 (amended): on input "a b c d" with chunk size 3,
`splitTextIntoChunks` returns the chunk list `["a b", "c d"]`: the empty
current chunk absorbs "a" (0+1+1 = 2 is not over the budget 3), "b" still
fits ("a b" has length 1+1+1 = 3, not over 3), and likewise for "c d". -/
theorem chunks_example : splitTextIntoChunks "a b c d" 3 = ["a b", "c d"] := by
  decide

/-- C2 (counterexample): for the input "xxxxx" with chunk size 3, the words
joined by single spaces are "xxxxx", but joining the returned chunks with
single spaces yields a different string (a leading empty chunk is emitted,
so the joined chunks carry a spurious leading space). -/
theorem chunks_join_words_cex :
    goJoin " " (goFields "xxxxx") = "xxxxx" ∧
      goJoin " " (splitTextIntoChunks "xxxxx" 3) ≠ "xxxxx" := by
  constructor
  · decide
  · decide

/-- C2 (amended): whenever the first word of the input fits in the chunk
size budget (its byte length plus one is at most the chunk size) — in
particular for every input whose words all fit — concatenating all chunks
returned by `splitTextIntoChunks` with single spaces reproduces the
whitespace-normalized original text, i.e. the whitespace-delimited words
joined by single spaces. (When the first word is at least as long as the
budget, a leading empty chunk adds one spurious leading space.) -/
theorem chunks_join_words (text : String) (n : Nat)
    (h : ∀ w ∈ (goFields text).take 1, goLen w + 1 ≤ n) :
    goJoin " " (splitTextIntoChunks text n) = goJoin " " (goFields text) := by
  simp only [splitTextIntoChunks]
  cases hW : goFields text with
  | nil => simp [goJoin]
  | cons w ws =>
    rw [hW] at h
    have hw1 : goLen w + 1 ≤ n := h w (by simp)
    have hwne : w ≠ "" :=
      goFields_mem_ne_empty text w (by rw [hW]; exact List.mem_cons_self w ws)
    have hwsne : ∀ v ∈ ws, v ≠ "" := fun v hv =>
      goFields_mem_ne_empty text v (by rw [hW]; exact List.mem_cons_of_mem w hv)
    rw [List.foldl_cons]
    rw [show chunkStep n ([], "") w = ([], w) by
      simp only [chunkStep]
      rw [if_neg (by rw [goLen_empty]; omega)]
      simp]
    obtain ⟨h2, h3⟩ := foldChunk_join n ws [] w hwne hwsne
    rw [if_pos h2, h3, List.nil_append]

/-- C2 witness. -/
theorem chunks_join_words_witness :
    goJoin " " (splitTextIntoChunks "ab cd" 10) = goJoin " " (goFields "ab cd") :=
  chunks_join_words "ab cd" 10 (by decide)

/-- C3: every chunk returned by `splitTextIntoChunks` has byte length at
most the chunk size, except a chunk that consists of a single
whitespace-delimited word of the input, itself longer than the chunk
size. -/
theorem chunk_length_bounded (text : String) (n : Nat) (c : String)
    (hc : c ∈ splitTextIntoChunks text n) :
    goLen c ≤ n ∨ (c ∈ goFields text ∧ n < goLen c) := by
  have main : goLen c ≤ n ∨ c ∈ goFields text := by
    obtain ⟨H1, H2⟩ := foldChunk_bound n (goFields text) (goFields text) [] ""
      (fun w hw => hw) (by intro d hd; cases hd)
      (Or.inl (by rw [goLen_empty]; exact Nat.zero_le n))
    simp only [splitTextIntoChunks] at hc
    split at hc
    · rcases List.mem_append.mp hc with h | h
      · exact H1 c h
      · rw [List.mem_singleton] at h
        subst h
        exact H2
    · exact H1 c hc
  by_cases hlen : goLen c ≤ n
  · exact Or.inl hlen
  · rcases main with h | h
    · exact Or.inl h
    · exact Or.inr ⟨h, Nat.lt_of_not_le hlen⟩

/-- C3 witness. -/
theorem chunk_length_bounded_witness :
    goLen "xxxxx" ≤ 3 ∨ ("xxxxx" ∈ goFields "xxxxx y" ∧ 3 < goLen "xxxxx") :=
  chunk_length_bounded "xxxxx y" 3 "xxxxx" (by decide)

/-- C4: on an input containing no words — the empty string or a string of
whitespace characters only — `splitTextIntoChunks` returns zero chunks, for
every chunk size. -/
theorem empty_input_no_chunks (text : String) (n : Nat)
    (h : ∀ c ∈ text.data, goIsSpace c = true) :
    splitTextIntoChunks text n = [] := by
  have hf : goFields text = [] := fieldsAux_all_space goIsSpace text.data h
  simp only [splitTextIntoChunks, hf]
  rfl

/-- C4 witness. -/
theorem empty_input_no_chunks_witness : splitTextIntoChunks " 	 " 5 = [] :=
  empty_input_no_chunks " 	 " 5 (by decide)

/-- C9: whenever the current chunk is empty and the next word's length plus
one exceeds the chunk size, the loop body of `splitTextIntoChunks` appends
the empty string as a chunk; in particular input "xxxxx" with chunk size 3
yields the chunk list `["", "xxxxx"]`, so the output can contain
empty-string chunks. -/
theorem empty_chunk_emitted (cs : List String) (w : String) (n : Nat)
    (h : n < goLen w + 1) :
    chunkStep n (cs, "") w = (cs ++ [""], w) ∧
      splitTextIntoChunks "xxxxx" 3 = ["", "xxxxx"] := by
  constructor
  · simp only [chunkStep]
    rw [if_pos (by rw [goLen_empty]; omega)]
  · decide

/-- C9 witness. -/
theorem empty_chunk_emitted_witness :
    chunkStep 3 ([], "") "xxxxx" = ([""], "xxxxx") ∧
      splitTextIntoChunks "xxxxx" 3 = ["", "xxxxx"] :=
  empty_chunk_emitted [] "xxxxx" 3 (by decide)

/-- C5: given an input file, the `summarize` subcommand returns the
ratio-out-of-range error exactly when the ratio flag is strictly below 0.1
or strictly above 0.5; the validation happens in the command's `Exec`
before `summarizeText` is invoked, so no summarization work is performed on
that error path. -/
theorem summarize_rejects_bad_ratio (inputPath outputPath : String) (ratio : ℚ)
    (h : inputPath ≠ "") :
    summarizeCommandExec inputPath outputPath ratio = .errRatioOutOfRange ↔
      ratio < 0.1 ∨ ratio > 0.5 := by
  simp only [summarizeCommandExec, if_neg h]
  by_cases hr : ratio < 0.1 ∨ ratio > 0.5
  · rw [if_pos hr]
    exact iff_of_true rfl hr
  · rw [if_neg hr]
    exact iff_of_false (by simp) hr

/-- C5 witness. -/
theorem summarize_rejects_bad_ratio_witness :
    summarizeCommandExec "t.txt" "" 0.6 = .errRatioOutOfRange :=
  (summarize_rejects_bad_ratio "t.txt" "" 0.6 (by decide)).mpr (Or.inr (by norm_num))

/-- C6: `summarizeText` clamps its ratio argument into [0.1, 0.5] before
using it: inputs below 0.1 become 0.1, inputs above 0.5 become 0.5, and
inputs inside the interval are unchanged; the clamped value is the ratio
used for the prompt percentage and the max-token budget. -/
theorem ratio_used_is_clamped (ratio : ℚ) :
    (ratio < 0.1 → clampRatio ratio = 0.1) ∧
      (0.5 < ratio → clampRatio ratio = 0.5) ∧
      (0.1 ≤ ratio → ratio ≤ 0.5 → clampRatio ratio = ratio) := by
  unfold clampRatio
  refine ⟨fun h => ?_, fun h => ?_, fun h1 h2 => ?_⟩
  · rw [if_pos h]
  · rw [if_neg (by linarith), if_pos h]
  · rw [if_neg (by linarith), if_neg (by exact not_lt.mpr h2)]

/-- C6 witness. -/
theorem ratio_used_is_clamped_witness : clampRatio 0.3 = 0.3 :=
  (ratio_used_is_clamped 0.3).2.2 (by norm_num) (by norm_num)

/-- C7: with an empty `-o` flag, the default output path strips the input
path's extension and appends ".txt" for `generate` and `transcribe` and
".summary.txt" for `summarize` — in particular "video.mp4" yields
"video.txt" and "transcript.txt" yields "transcript.summary.txt" — while a
nonempty `-o` value is used unchanged by all three subcommands. -/
theorem default_output_paths (i o : String) (h : o ≠ "") :
    generateOutputPath "video.mp4" "" = "video.txt" ∧
      transcribeOutputPath "video.mp4" "" = "video.txt" ∧
      summarizeOutputPath "transcript.txt" "" = "transcript.summary.txt" ∧
      generateOutputPath i o = o ∧
      transcribeOutputPath i o = o ∧
      summarizeOutputPath i o = o ∧
      (∀ p, generateOutputPath p "" = trimSuffix p (filepathExt p) ++ ".txt") ∧
      (∀ p, transcribeOutputPath p "" = trimSuffix p (filepathExt p) ++ ".txt") ∧
      (∀ p, summarizeOutputPath p "" = trimSuffix p (filepathExt p) ++ ".summary.txt") := by
  refine ⟨by decide, by decide, by decide, ?_, ?_, ?_, ?_, ?_, ?_⟩
  · simp [generateOutputPath, h]
  · simp [transcribeOutputPath, h]
  · simp [summarizeOutputPath, h]
  · intro p
    simp [generateOutputPath]
  · intro p
    simp [transcribeOutputPath]
  · intro p
    simp [summarizeOutputPath]

/-- C7 witness. -/
theorem default_output_paths_witness :
    generateOutputPath "a.mp4" "keep.txt" = "keep.txt" :=
  (default_output_paths "a.mp4" "keep.txt" (by decide)).2.2.2.1

/-- C8: when at least one per-chunk summarization request fails,
`summarizeText` returns the first error drained from the error channel, and
the output file is never written — no combined or partial summary is
produced on the error path. -/
theorem error_aborts_summary (e : String) (moreErrors summaries : List String) :
    summarizeFinish (e :: moreErrors) summaries = .failed e ∧
      ∀ content, summarizeFinish (e :: moreErrors) summaries ≠ .written content := by
  refine ⟨rfl, fun content hcon => ?_⟩
  simp [summarizeFinish] at hcon

/-- C8 witness. -/
theorem error_aborts_summary_witness :
    summarizeFinish ["boom"] ["s1"] = .failed "boom" :=
  (error_aborts_summary "boom" [] ["s1"]).1

/-- C10: the combined summary written by `summarizeText` is the collected
fragments joined with the literal separator "\n\n--- 第%d部分结束 ---\n\n",
whose "%d" placeholder is never substituted: it appears verbatim between
every pair of adjacent fragments. -/
theorem summary_separator_literal (summaries : List String) (a b : String)
    (rest : List String) :
    summarizeFinish [] summaries =
      .written (goJoin "\n\n--- 第%d部分结束 ---\n\n" summaries) ∧
      goJoin "\n\n--- 第%d部分结束 ---\n\n" (a :: b :: rest) =
        a ++ "\n\n--- 第%d部分结束 ---\n\n" ++
          goJoin "\n\n--- 第%d部分结束 ---\n\n" (b :: rest) :=
  ⟨rfl, rfl⟩
